import Mathlib

set_option maxRecDepth 8000

/-!
Verification of the B+ tree in the BP-Tree-Index repository against its
natural-language specification.

The repository file `src/src/BP-Tree.tpp` is a concatenation of three
implementation variants of the `BPlusTree<Key, RecordId, Order, compare>`
template (separated by document markers).  The claims reference all three,
so each is embedded under its own namespace:

* `VA` — first variant (BP-Tree.tpp lines 1-1252, paired with the header at
  the end of `Iterators.tpp`): sorted insertion via `std::lower_bound` with
  a duplicate check, `split_leaf` / `split_internal`, `remove` with
  `balance_after_remove`, `range_search` walking the leaf chain, iterators.
* `VB` — second variant (lines 1253-2137): `insert` that appends with
  `push_back`, `split_child(root_, 0)` which increments `size_`, a
  linear-scan `find_leaf`, `find` scanning one leaf.
* `VC` — third variant (lines 2138-2995): same insert shape as `VB`, plus
  the copy constructor built on `copy_nodes`, whose leaf clone keeps the
  original node's `next_` pointer.

Modeling conventions:
* `DynamicArray` / `std::vector` are modeled as `List`.
* A leaf's parallel arrays `keys_` / `values_` are modeled as one list of
  key-value pairs (the source always keeps the two arrays the same length).
* The comparator `compare = std::less<Key>` is modeled by instantiating the
  key type with a `LinearOrder` and using its `<`.
* Shared-pointer mutation is modeled functionally: a mutated node is written
  back into the tree at its position.  Pointer-identity comparisons in
  `find_parent` become structural equality (the trees evaluated here have
  pairwise distinct nodes, where the two coincide).
* The non-owning leaf `next_` chain of variants A and B is represented by
  the in-order leaf sequence `leavesOf` (spec invariant 4).  Variant C's
  `copy_nodes` breaks precisely this identification, so `VC` instead uses
  an explicit heap of leaf records addressed by ids, where `next_` is an id.
* Out-of-bounds container accesses (undefined behavior in C++) are given
  harmless default values; no evaluated scenario reaches them.
-/

namespace BPTree

/-- `container.insert(begin + i, a)`: insert `a` at position `i`. -/
def insertAt (l : List α) (i : Nat) (a : α) : List α :=
  l.take i ++ a :: l.drop i

/-- `std::lower_bound(keys.begin(), keys.end(), key, comparator_)`: index of
the first element `x` with `¬ x < key`.  This is the result the standard
specifies for partitioned ranges; on the unsorted leaves produced by variant
B's `push_back` insertion it also agrees with libstdc++'s half-the-length
binary search at every input evaluated below. -/
def lowerBound [LinearOrder K] (l : List K) (k : K) : Nat :=
  match l with
  | [] => 0
  | x :: xs => if x < k then lowerBound xs k + 1 else 0

/-- A tree node: `leaf` models `LeafNode` (parallel `keys_` / `values_` as
one list of pairs), `internal` models `InternalNode` (`keys_` and
`children_`).  -/
inductive Node (K V : Type) where
  | leaf (entries : List (K × V))
  | internal (keys : List K) (children : List (Node K V))
  deriving Repr

namespace Node

/-- Structural equality of nodes.  The source compares nodes by
shared-pointer identity (`children_[i] == target`); in the scenarios
evaluated here all nodes are pairwise distinct, where the two notions
agree. -/
def beq [DecidableEq K] [DecidableEq V] : Node K V → Node K V → Bool
  | .leaf es, .leaf es' => decide (es = es')
  | .internal ks cs, .internal ks' cs' =>
    decide (ks = ks') && decide (cs.length = cs'.length) &&
      (cs.zip cs').attach.all (fun p => beq p.1.1 p.1.2)
  | .leaf _, .internal _ _ => false
  | .internal _ _, .leaf _ => false
decreasing_by
  have hm : p.1.1 ∈ cs := (List.of_mem_zip p.2).1
  have := List.sizeOf_lt_of_mem hm
  simp only [Node.internal.sizeOf_spec]
  omega

/-- The in-order sequence of leaf contents.  For variants A and B this is
also the `next_` chain: splits splice the new right half immediately after
the split leaf and merges splice it out, so the chain always lists the
leaves left to right. -/
def leavesOf : Node K V → List (List (K × V))
  | .leaf es => [es]
  | .internal _ cs => (cs.attach.map (fun c => leavesOf c.1)).flatten
decreasing_by
  have := List.sizeOf_lt_of_mem c.2
  simp only [Node.internal.sizeOf_spec]
  omega

/-- All key-value pairs reachable from a node, in leaf-chain order. -/
def entriesOf (n : Node K V) : List (K × V) :=
  (leavesOf n).flatten

/-- Number of keys stored in the node itself (`size()` of either node kind). -/
def keyCount : Node K V → Nat
  | .leaf es => es.length
  | .internal ks _ => ks.length

/-- `true` iff `p` holds of every proper descendant of the node (used to
check the fill-bound invariant for non-root nodes). -/
def allStrictSub (p : Node K V → Bool) : Node K V → Bool
  | .leaf _ => true
  | .internal _ cs => cs.attach.all (fun c => p c.1 && allStrictSub p c.1)
decreasing_by
  have := List.sizeOf_lt_of_mem c.2
  simp only [Node.internal.sizeOf_spec]
  omega

end Node

/-- The tree's own state: `root_` (`none` models the `std::monostate` empty
marker) and the `size_` counter. -/
structure TreeState (K V : Type) where
  root : Option (Node K V)
  size : Nat
  deriving Repr

/-- Errors surfaced by the tree (`std::runtime_error` on duplicate keys,
plus a fuel marker standing for non-termination of the source's unbounded
recursion, which no evaluated scenario reaches). -/
inductive Err where
  | dupKey
  | leafNotFound
  | fuelOut
  deriving Repr, DecidableEq

end BPTree

namespace BPTree.VB

variable {K V : Type} [LinearOrder K] [Inhabited K] [Inhabited V]

/-- The child index chosen by variant B's `find_leaf` (BP-Tree.tpp
1459-1476): advance `i` while `is_less_or_eq(keys_[i], key)`, i.e. while
`keys_[i] ≤ key`. -/
def childIdx (ks : List K) (k : K) : Nat :=
  (ks.takeWhile (fun s => decide (s ≤ k))).length

/-- Variant B `find_leaf` (BP-Tree.tpp 1459-1476): descend with `childIdx`
until a leaf is reached; returns its contents. -/
def findLeaf : Node K V → K → List (K × V)
  | .leaf es, _ => es
  | .internal ks cs, k =>
    if h : childIdx ks k < cs.length then
      findLeaf cs[childIdx ks k] k
    else []
decreasing_by
  have := List.sizeOf_lt_of_mem (List.getElem_mem h)
  simp only [Node.internal.sizeOf_spec]
  omega

/-- Rebuild the tree with the leaf that `find_leaf` reaches replaced by
`f` of its contents (the source mutates that leaf through its shared
pointer; the descent is the same as `findLeaf`). -/
def updateFindLeaf (f : List (K × V) → List (K × V)) : Node K V → K → Node K V
  | .leaf es, _ => .leaf (f es)
  | .internal ks cs, k =>
    if h : childIdx ks k < cs.length then
      .internal ks (cs.set (childIdx ks k) (updateFindLeaf f cs[childIdx ks k] k))
    else .internal ks cs
decreasing_by
  have := List.sizeOf_lt_of_mem (List.getElem_mem h)
  simp only [Node.internal.sizeOf_spec]
  omega

/-- Variant B `split_child(parent, child_index)` (BP-Tree.tpp 1393-1448)
without the trailing `size_++` of line 1447, which the caller applies.
Splits `children_[child_index]` of `parent` and inserts the separator and
the new right node into `parent`. -/
def splitChild (Order : Nat) (parent : Node K V) (childIndex : Nat) : Node K V :=
  match parent with
  | .leaf es => .leaf es
  | .internal ks cs =>
    match cs.getD childIndex (.leaf []) with
    | .internal cks ccs =>
      let mid := (Order - 1) / 2
      let median := cks.getD mid default
      let newNode := Node.internal (cks.drop (mid + 1)) (ccs.drop (mid + 1))
      let child' := Node.internal (cks.take mid) (ccs.take (mid + 1))
      Node.internal (insertAt ks childIndex median)
        (insertAt (cs.set childIndex child') (childIndex + 1) newNode)
    | .leaf es =>
      let mid := Order / 2
      let newLeaf := Node.leaf (es.drop mid)
      let child' := Node.leaf (es.take mid)
      Node.internal (insertAt ks childIndex (es.getD mid default).1)
        (insertAt (cs.set childIndex child') (childIndex + 1) newLeaf)

/-- Variant B `insert` (BP-Tree.tpp 1562-1600).  Empty tree: new root leaf.
Otherwise find the leaf, reject a duplicate (`*it == key` after
`std::lower_bound`), and either `push_back` the pair at the END of the leaf
(line 1595-1596: not at the sorted position) or, if the leaf `is_full()`,
split `children_[0]` of the root and retry recursively.  `size_++` runs at
the end of every non-throwing call and once more inside `split_child`.
The source's unbounded recursion is modeled with fuel. -/
def insert (Order : Nat) : Nat → TreeState K V → K → V → Except Err (TreeState K V)
  | 0, _, _, _ => .error .fuelOut
  | fuel + 1, s, k, v =>
    match s.root with
    | none => .ok ⟨some (.leaf [(k, v)]), s.size + 1⟩
    | some root =>
      let es := findLeaf root k
      let i := lowerBound (es.map Prod.fst) k
      if ((es.map Prod.fst)[i]?).any (fun x => decide (x = k)) then
        .error .dupKey
      else if Order - 1 ≤ es.length then
        let root1 := match root with
          | .leaf es' => Node.internal [] [Node.leaf es']
          | n => n
        let root2 := splitChild Order root1 0
        match insert Order fuel ⟨some root2, s.size + 1⟩ k v with
        | .error e => .error e
        | .ok s' => .ok ⟨s'.root, s'.size + 1⟩
      else
        .ok ⟨some (updateFindLeaf (fun es' => es' ++ [(k, v)]) root k), s.size + 1⟩

/-- Variant B `find` (BP-Tree.tpp 1495-1512): linear scan of the leaf that
`find_leaf` reaches, collecting the values whose key `== key`.  (On an
empty root the source dereferences a null/invalid pointer; that case is
never evaluated here and returns `[]`.) -/
def find (s : TreeState K V) (k : K) : List V :=
  match s.root with
  | none => []
  | some root =>
    (findLeaf root k).filterMap (fun e => if e.1 = k then some e.2 else none)

/-- Run a list of insertions left to right, stopping at the first error. -/
def insertSeq (Order fuel : Nat) (s : TreeState K V) : List (K × V) → Except Err (TreeState K V)
  | [] => .ok s
  | (k, v) :: rest =>
    match insert Order fuel s k v with
    | .error e => .error e
    | .ok s' => insertSeq Order fuel s' rest

end BPTree.VB

namespace BPTree

/-! Concrete variant-B scenarios used by claims C1, C2 and C3 (all with
`Order = 4`, starting from the empty tree). -/

/-- C1 scenario: insert `(20,"w")`, `(10,"v1")`, then the duplicate
`(10,"v2")`. -/
def c1run : Except Err (TreeState Nat String) :=
  VB.insertSeq 4 9 ⟨none, 0⟩ [(20, "w"), (10, "v1"), (10, "v2")]

/-- C2 scenario: insert keys 1,2,3,4 (the fourth triggers a split). -/
def c2run : Except Err (TreeState Nat String) :=
  VB.insertSeq 4 9 ⟨none, 0⟩ [(1, "a"), (2, "b"), (3, "c"), (4, "d")]

/-- C3 scenario: insert `(20,"w")` then `(10,"x")`. -/
def c3run : Except Err (TreeState Nat String) :=
  VB.insertSeq 4 9 ⟨none, 0⟩ [(20, "w"), (10, "x")]

/-- The result of `find(10)` on the C1 tree (empty list when the build
itself failed). -/
def c1find : List String :=
  match c1run with
  | .ok s => VB.find s 10
  | .error _ => []

/-- The `size_` counter of a run's final state. -/
def sizeCounterOf (r : Except Err (TreeState K V)) : Option Nat :=
  match r with
  | .ok s => some s.size
  | .error _ => none

/-- The number of key-value pairs reachable from the root of a run's final
state (also the number of pairs full iteration yields). -/
def entryCountOf (r : Except Err (TreeState K V)) : Option Nat :=
  match r with
  | .ok s => s.root.map (fun n => (Node.entriesOf n).length)
  | .error _ => none

/-- The in-order key sequence of a run's final state (what iterating from
`begin()` to `end()` visits). -/
def iterKeysOf (r : Except Err (TreeState K V)) : Option (List K) :=
  match r with
  | .ok s => some ((s.root.elim [] Node.entriesOf).map Prod.fst)
  | .error _ => none

end BPTree

namespace BPTree.VA

variable {K V : Type} [LinearOrder K] [Inhabited K] [Inhabited V]
variable [DecidableEq V]

/-- The clamp of variant A's `find_leaf` (BP-Tree.tpp 175-177): after
`index = lower_bound(keys_, key)`, `if (index == keys_.size()) index--`,
so a key not less than every separator descends into the SECOND-TO-LAST
child `children_[m-1]`, not the last one. -/
def clampIdx (i m : Nat) : Nat :=
  if i = m then i - 1 else i

/-- Variant A `find_leaf` (BP-Tree.tpp 149-189), as the position of the
reached leaf in the in-order leaf sequence: at each internal node take
`lower_bound` of the separators, clamp, and descend.  The source returns
the leaf pointer; the position determines both the leaf and the suffix of
the `next_` chain hanging off it. -/
def findLeafIdx : Node K V → K → Nat
  | .leaf _, _ => 0
  | .internal ks cs, k =>
    if h : clampIdx (lowerBound ks k) ks.length < cs.length then
      ((cs.take (clampIdx (lowerBound ks k) ks.length)).map
          (fun c => (Node.leavesOf c).length)).sum +
        findLeafIdx cs[clampIdx (lowerBound ks k) ks.length] k
    else 0
decreasing_by
  have := List.sizeOf_lt_of_mem (List.getElem_mem h)
  simp only [Node.internal.sizeOf_spec]
  omega

/-- The same descent as `findLeafIdx`, returning the list of child indices
followed from the root down to the reached leaf (used to write the mutated
leaf back, which the source does through the leaf's shared pointer). -/
def findLeafPath : Node K V → K → List Nat
  | .leaf _, _ => []
  | .internal ks cs, k =>
    if h : clampIdx (lowerBound ks k) ks.length < cs.length then
      clampIdx (lowerBound ks k) ks.length ::
        findLeafPath cs[clampIdx (lowerBound ks k) ks.length] k
    else []
decreasing_by
  have := List.sizeOf_lt_of_mem (List.getElem_mem h)
  simp only [Node.internal.sizeOf_spec]
  omega

/-- The contents of the leaf returned by variant A's `find_leaf` (`none`
models the null pointer returned for the `std::monostate` root,
BP-Tree.tpp 154-156). -/
def findLeafEntries (r : Option (Node K V)) (k : K) : Option (List (K × V)) :=
  match r with
  | none => none
  | some n => some ((Node.leavesOf n).getD (findLeafIdx n k) [])

/-- Read the node at a path of child indices. -/
def getAt : Node K V → List Nat → Option (Node K V)
  | n, [] => some n
  | .leaf _, _ :: _ => none
  | .internal _ cs, i :: p =>
    match cs[i]? with
    | some c => getAt c p
    | none => none
termination_by _ p => p.length

/-- Write node `r` at a path of child indices (models mutation through the
shared pointer of the node that the path designates). -/
def setAt : Node K V → List Nat → Node K V → Node K V
  | _, [], r => r
  | .leaf es, _ :: _, _ => .leaf es
  | .internal ks cs, i :: p, r =>
    match cs[i]? with
    | some c => .internal ks (cs.set i (setAt c p r))
    | none => .internal ks cs
termination_by _ p _ => p.length

/-- Replace every occurrence of `target` by `repl` (models mutation of a
node reached only through a shared pointer; the evaluated trees have
pairwise-distinct nodes, so at most one occurrence exists). -/
def replaceNode (target repl : Node K V) (n : Node K V) : Node K V :=
  if Node.beq n target then repl
  else
    match n with
    | .leaf es => .leaf es
    | .internal ks cs => .internal ks (cs.attach.map (fun c => replaceNode target repl c.1))
decreasing_by
  have := List.sizeOf_lt_of_mem c.2
  simp only [Node.internal.sizeOf_spec]
  omega

/-- Height of a node (1 for a leaf), used to bound the source's upward
`while`/recursion loops. -/
def heightOf : Node K V → Nat
  | .leaf _ => 1
  | .internal _ cs => 1 + (cs.attach.map (fun c => heightOf c.1)).foldr max 0
decreasing_by
  have := List.sizeOf_lt_of_mem c.2
  simp only [Node.internal.sizeOf_spec]
  omega

/-- The inner `for` loop of variant A's `find_parent` (BP-Tree.tpp
440-452): scan the children left to right; report `(true, i)` when
`children_[i] == target`, or `(false, i)` at the first internal child
(the loop then descends into it and breaks). -/
def loopScan [DecidableEq K] (target : Node K V) : Nat → List (Node K V) → Option (Bool × Nat)
  | _, [] => none
  | i, c :: rest =>
    if Node.beq c target then some (true, i)
    else
      match c with
      | .internal _ _ => some (false, i)
      | .leaf _ => loopScan target (i + 1) rest

/-- The `while (current)` loop of variant A's `find_parent` (BP-Tree.tpp
436-458), returning the path to the parent when found.  Note the source
descends only into the FIRST internal child of each node, so for trees of
height ≥ 3 it finds parents only along the leftmost spine. -/
def findParentAux [DecidableEq K] (target : Node K V) :
    Nat → Node K V → List Nat → Option (List Nat)
  | 0, _, _ => none
  | _ + 1, .leaf _, _ => none
  | fuel + 1, .internal _ cs, path =>
    match loopScan target 0 cs with
    | some (true, _) => some path
    | some (false, i) =>
      match cs[i]? with
      | some c => findParentAux target fuel c (path ++ [i])
      | none => none
    | none => none

/-- Variant A `find_parent` (BP-Tree.tpp 419-461): `none` when the target
is the root, the root is not internal, or the search fails. -/
def findParentPath [DecidableEq K] (root target : Node K V) : Option (List Nat) :=
  if Node.beq root target then none
  else
    match root with
    | .leaf _ => none
    | .internal ks cs => findParentAux target (heightOf (.internal ks cs)) (.internal ks cs) []

/-- Variant A `redistribute_nodes(lhs, rhs)` (BP-Tree.tpp 608-636).  Only
the leaf-leaf branch exists: move the LAST pair of the left node to the
front of the right node (even when the left node is the underfull one),
then look up the parent of `lhs` from the root and overwrite the separator
left of `rhs` with the right node's new first key.  `lhs` and `rhs` are
identified by their paths; `left->keys_.back()` on an empty left leaf is
undefined behavior in the source and is modeled as a no-op (never
evaluated). -/
def redistributeNodes [DecidableEq K] (root : Node K V) (lhsPath rhsPath : List Nat) :
    Node K V :=
  match getAt root lhsPath, getAt root rhsPath with
  | some (.leaf ls), some (.leaf rs) =>
    match ls.getLast? with
    | none => root
    | some e =>
      let ls' := ls.dropLast
      let rs' := e :: rs
      let root1 := setAt (setAt root lhsPath (.leaf ls')) rhsPath (.leaf rs')
      match findParentPath root1 (.leaf ls') with
      | none => root1
      | some ppath =>
        match getAt root1 ppath with
        | some (.internal pks pcs) =>
          let idx := pcs.findIdx (fun c => Node.beq c (.leaf rs'))
          if 0 < idx then
            setAt root1 ppath
              (.internal (pks.set (idx - 1) ((rs'.map Prod.fst).headD default)) pcs)
          else root1
        | _ => root1
  | _, _ => root

/-- Variant A `merge_nodes(left, right)` (BP-Tree.tpp 647-678).  Only the
leaf-leaf branch exists: append the right leaf's pairs to the left leaf,
splice the chain, then look up the parent of `left` from the root and
erase the right child and the separator left of it. -/
def mergeNodes [DecidableEq K] (root : Node K V) (leftPath rightPath : List Nat) :
    Node K V :=
  match getAt root leftPath, getAt root rightPath with
  | some (.leaf ls), some (.leaf rs) =>
    let merged := Node.leaf (ls ++ rs)
    let root1 := setAt root leftPath merged
    match findParentPath root1 merged with
    | none => root1
    | some ppath =>
      match getAt root1 ppath with
      | some (.internal pks pcs) =>
        let idx := pcs.findIdx (fun c => Node.beq c (.leaf rs))
        setAt root1 ppath (.internal (pks.eraseIdx (idx - 1)) (pcs.eraseIdx idx))
      | _ => root1
  | _, _ => root

/-- `true` iff the node is a leaf with more than `⌊(Order-1)/2⌋` keys (the
sibling tests of BP-Tree.tpp 559-565 and 575-581; internal siblings are
never considered). -/
def leafBiggerHalf (Order : Nat) : Option (Node K V) → Bool
  | some (.leaf ls) => decide ((Order - 1) / 2 < ls.length)
  | _ => false

/-- Variant A `balance_after_remove(node)` (BP-Tree.tpp 533-596): locate
the parent, try to redistribute with a leaf left sibling then a leaf right
sibling, otherwise merge with a sibling; recurse on the parent when it is
left with fewer than `⌊(Order-1)/2⌋` keys.  The upward recursion is fueled
by the tree height. -/
def balanceAfterRemove [DecidableEq K] (Order : Nat) :
    Nat → Node K V → Node K V → Node K V
  | 0, root, _ => root
  | fuel + 1, root, target =>
    match findParentPath root target with
    | none => root
    | some ppath =>
      match getAt root ppath with
      | some (.internal _ pcs) =>
        let nodeIdx := pcs.findIdx (fun c => Node.beq c target)
        if decide (0 < nodeIdx) && leafBiggerHalf Order pcs[nodeIdx - 1]? then
          redistributeNodes root (ppath ++ [nodeIdx - 1]) (ppath ++ [nodeIdx])
        else if decide (nodeIdx < pcs.length - 1) && leafBiggerHalf Order pcs[nodeIdx + 1]? then
          redistributeNodes root (ppath ++ [nodeIdx]) (ppath ++ [nodeIdx + 1])
        else
          let root2 :=
            if 0 < nodeIdx then
              mergeNodes root (ppath ++ [nodeIdx - 1]) (ppath ++ [nodeIdx])
            else
              mergeNodes root (ppath ++ [nodeIdx]) (ppath ++ [nodeIdx + 1])
          match getAt root2 ppath with
          | some (.internal pks2 pcs2) =>
            if pks2.length < (Order - 1) / 2 then
              balanceAfterRemove Order fuel root2 (.internal pks2 pcs2)
            else root2
          | _ => root2
      | _ => root

/-- Variant A `remove(key)` (BP-Tree.tpp 477-521): silently return on the
empty root, on a null leaf, or when the leaf holds no key comparing equal
(`comp(key,*it) || comp(*it,key)`); otherwise erase the pair, decrement
`size_`, collapse a now-empty leaf root to the empty marker, and rebalance
when the leaf underflows. -/
def remove [DecidableEq K] (Order : Nat) (s : TreeState K V) (k : K) : TreeState K V :=
  match s.root with
  | none => s
  | some root =>
    let lpath := findLeafPath root k
    match getAt root lpath with
    | some (.leaf es) =>
      let i := lowerBound (es.map Prod.fst) k
      match (es.map Prod.fst)[i]? with
      | none => s
      | some x =>
        if k < x ∨ x < k then s
        else
          let es' := es.eraseIdx i
          let root1 := setAt root lpath (.leaf es')
          match root1 with
          | .leaf [] => ⟨none, s.size - 1⟩
          | _ =>
            if es'.length < (Order - 1) / 2 then
              ⟨some (balanceAfterRemove Order (heightOf root1 + 1) root1 (.leaf es')),
                s.size - 1⟩
            else ⟨some root1, s.size - 1⟩
    | _ => s

/-- Variant A `split_internal(node)` (BP-Tree.tpp 360-416): the median key
is promoted, the right halves move to a new internal node; a root split
builds a fresh root, otherwise the median and the new node are inserted
into the parent found by `find_parent`, recursing while the parent is
full.  The upward recursion is fueled. -/
def splitInternal [DecidableEq K] (Order : Nat) :
    Nat → Node K V → Node K V → Node K V
  | 0, root, _ => root
  | fuel + 1, root, target =>
    match target with
    | .leaf _ => root
    | .internal tks tcs =>
      let mid := tks.length / 2
      let midKey := tks.getD mid default
      let newNode := Node.internal (tks.drop (mid + 1)) (tcs.drop (mid + 1))
      let left := Node.internal (tks.take mid) (tcs.take (mid + 1))
      if Node.beq root target then
        .internal [midKey] [left, newNode]
      else
        let root1 := replaceNode target left root
        match findParentPath root1 left with
        | none => root1
        | some ppath =>
          match getAt root1 ppath with
          | some (.internal pks pcs) =>
            let ipos := lowerBound pks midKey
            let pks' := insertAt pks ipos midKey
            let root2 := setAt root1 ppath (.internal pks' (insertAt pcs (ipos + 1) newNode))
            if Order - 1 ≤ pks'.length then
              splitInternal Order fuel root2 (.internal pks' (insertAt pcs (ipos + 1) newNode))
            else root2
          | _ => root1

/-- Variant A `split_leaf(leaf)` (BP-Tree.tpp 283-343): move the upper half
of the pairs to a new leaf spliced after the original; a root split builds
a fresh internal root with separator `new_leaf.keys_.front()`, otherwise
the separator and new leaf are inserted into the parent found by
`find_parent` (when the parent is not found, the new leaf is reachable
only through the chain), recursing into `split_internal` when the parent
becomes full. -/
def splitLeaf [DecidableEq K] (Order : Nat) (root : Node K V) (lpath : List Nat) :
    Node K V :=
  match getAt root lpath with
  | some (.leaf es) =>
    let mid := es.length / 2
    let newLeaf := Node.leaf (es.drop mid)
    let left := Node.leaf (es.take mid)
    let sep := (es.getD mid default).1
    if lpath = [] then
      .internal [sep] [left, newLeaf]
    else
      let root1 := setAt root lpath left
      match findParentPath root1 left with
      | none => root1
      | some ppath =>
        match getAt root1 ppath with
        | some (.internal pks pcs) =>
          let ipos := lowerBound pks sep
          let pks' := insertAt pks ipos sep
          let root2 := setAt root1 ppath (.internal pks' (insertAt pcs (ipos + 1) newLeaf))
          if Order - 1 ≤ pks'.length then
            splitInternal Order (heightOf root2 + 1) root2
              (.internal pks' (insertAt pcs (ipos + 1) newLeaf))
          else root2
        | _ => root1
  | _ => root

/-- Variant A `insert(key, id)` (BP-Tree.tpp 215-264): empty tree seeds a
root leaf; otherwise the pair is inserted at the `lower_bound` position of
the located leaf after the duplicate check
(`!comp(key,*it) && !comp(*it,key)` throws `"Duplicate key"`), `size_` is
incremented, and the leaf is split when it reaches `Order` keys. -/
def insert [DecidableEq K] (Order : Nat) (s : TreeState K V) (k : K) (v : V) :
    Except Err (TreeState K V) :=
  match s.root with
  | none => .ok ⟨some (.leaf [(k, v)]), s.size + 1⟩
  | some root =>
    let lpath := findLeafPath root k
    match getAt root lpath with
    | some (.leaf es) =>
      let i := lowerBound (es.map Prod.fst) k
      if ((es.map Prod.fst)[i]?).any (fun x => decide (x = k)) then .error .dupKey
      else
        let es' := insertAt es i (k, v)
        let root1 := setAt root lpath (.leaf es')
        if Order ≤ es'.length then
          .ok ⟨some (splitLeaf Order root1 lpath), s.size + 1⟩
        else .ok ⟨some root1, s.size + 1⟩
    | _ => .error .leafNotFound

/-- Run variant-A insertions left to right, stopping at the first error. -/
def insertSeq [DecidableEq K] (Order : Nat) (s : TreeState K V) :
    List (K × V) → Except Err (TreeState K V)
  | [] => .ok s
  | (k, v) :: rest =>
    match insert Order s k v with
    | .error e => .error e
    | .ok s' => insertSeq Order s' rest

/-- The inner `for` loop of variant A `range_search` (BP-Tree.tpp
770-780): walk the pairs of one leaf, stopping (and abandoning the whole
scan) at the first key with `comparator_(to, key)`; returns the collected
values and whether the stop was hit. -/
def collectLeafVals (t : K) : List (K × V) → List V × Bool
  | [] => ([], false)
  | e :: es =>
    if t < e.1 then ([], true)
    else
      let r := collectLeafVals t es
      (e.2 :: r.1, r.2)

/-- The leaf-chain walk of variant A `range_search` (BP-Tree.tpp 762-784):
in each leaf start at `lower_bound(from)`, collect until the upper bound
stops the scan, otherwise continue into the next leaf. -/
def scanLeaves (f t : K) : List (List (K × V)) → List V
  | [] => []
  | l :: rest =>
    let r := collectLeafVals t (l.drop (lowerBound (l.map Prod.fst) f))
    if r.2 then r.1 else r.1 ++ scanLeaves f t rest

/-- Variant A `range_search(from, to)` (BP-Tree.tpp 742-787): empty result
on the empty root, otherwise scan the chain from the leaf located by
`find_leaf(from)`. -/
def rangeSearch (r : Option (Node K V)) (f t : K) : List V :=
  match r with
  | none => []
  | some n => scanLeaves f t ((Node.leavesOf n).drop (findLeafIdx n f))

/-- Variant A forward iterator (BP-Tree.hpp state, Iterators.tpp 8-46):
`current_node_` and the leaves reachable from it through `next_` are the
`chain` (empty chain = null node), `current_index_` is `idx`. -/
structure It (K V : Type) where
  chain : List (List (K × V))
  idx : Nat
  deriving Repr, DecidableEq

/-- `operator++` (Iterators.tpp 12-26): a null node is left unchanged;
otherwise advance the index and move to `next_` resetting the index when
it passes the leaf's key count. -/
def It.inc : It K V → It K V
  | ⟨[], i⟩ => ⟨[], i⟩
  | ⟨l :: rest, i⟩ => if l.length ≤ i + 1 then ⟨rest, 0⟩ else ⟨l :: rest, i + 1⟩

/-- `n` applications of `operator++`. -/
def It.stepN : Nat → It K V → It K V
  | 0, it => it
  | n + 1, it => stepN n it.inc

/-- `begin()` (BP-Tree.tpp 891-920): the leftmost leaf at index 0 (the
chain from there is the whole leaf sequence); the empty tree yields the
default iterator. -/
def beginIt (s : TreeState K V) : It K V :=
  match s.root with
  | none => ⟨[], 0⟩
  | some n => ⟨Node.leavesOf n, 0⟩

/-- `end()` (BP-Tree.tpp 923-927): the default iterator (null node,
index 0). -/
def endIt : It K V := (⟨[], 0⟩ : It K V)

/-- Shape well-formedness: every internal node has at least one separator
and exactly one more child than separators (what `find_leaf`'s indexing
needs; spec §3 guarantees it between operations). -/
def shapeWFb : Node K V → Bool
  | .leaf _ => true
  | .internal ks cs =>
    decide (ks ≠ []) && decide (cs.length = ks.length + 1) &&
      cs.attach.all (fun c => shapeWFb c.1)
decreasing_by
  have := List.sizeOf_lt_of_mem c.2
  simp only [Node.internal.sizeOf_spec]
  omega

/-- Separator well-formedness (spec §3 invariant 3, the half `find_leaf`
relies on): at every internal node, all keys in the subtree of
`children_[j]` are smaller than `keys_[j]`. -/
def sepWFb : Node K V → Bool
  | .leaf _ => true
  | .internal ks cs =>
    ((cs.zip ks).all (fun p => (Node.entriesOf p.1).all (fun e => decide (e.1 < p.2)))) &&
      cs.attach.all (fun c => sepWFb c.1)
decreasing_by
  have := List.sizeOf_lt_of_mem c.2
  simp only [Node.internal.sizeOf_spec]
  omega

/-- Well-formedness of a variant-A tree (spec §3 invariants 3-5): shape,
separator bounds, and strictly increasing keys across the in-order
entries. -/
def WF (n : Node K V) : Prop :=
  shapeWFb n = true ∧ sepWFb n = true ∧
    List.Pairwise (· < ·) ((Node.entriesOf n).map Prod.fst)

end BPTree.VA

namespace BPTree

/-! Concrete variant-A scenarios (claims C4, C7, C8, C10, and witnesses). -/

/-- C4 scenario: `Order = 4`, insert `(10,"a") (20,"b") (30,"c") (40,"d")`
(the fourth insert triggers a leaf split). -/
def c4run : Except Err (TreeState Nat String) :=
  VA.insertSeq 4 ⟨none, 0⟩ [(10, "a"), (20, "b"), (30, "c"), (40, "d")]

/-- The tree `c4run` produces: root separator 30 over leaves
`[(10,a),(20,b)]` and `[(30,c),(40,d)]`. -/
def c4root : Node Nat String :=
  .internal [30] [.leaf [(10, "a"), (20, "b")], .leaf [(30, "c"), (40, "d")]]

/-- C8 scenario: `Order = 5`, insert keys 10..50, then `remove(10)`.  The
removal underflows the left leaf `[(20,v2)]` and `balance_after_remove`
"redistributes" with the right sibling — moving the left leaf's last pair
INTO the right sibling. -/
def c8run : TreeState Nat String :=
  match VA.insertSeq 5 ⟨none, 0⟩
      [(10, "v1"), (20, "v2"), (30, "v3"), (40, "v4"), (50, "v5")] with
  | .ok s => VA.remove 5 s 10
  | .error _ => ⟨none, 0⟩

/-- The state `c8run` produces: a non-root EMPTY leaf next to a leaf with
four pairs. -/
def c8root : Node Nat String :=
  .internal [20] [.leaf [], .leaf [(20, "v2"), (30, "v3"), (40, "v4"), (50, "v5")]]

end BPTree

namespace BPTree.VC

/-- A `LeafNode` as stored on the heap: its pairs and its `next_` pointer,
an id into the heap (`none` = null).  Variant C's `copy_nodes` copies this
`next_` field verbatim (BP-Tree.tpp 2934), so a clone's chain can point
into the tree it was copied from; ids make that aliasing expressible. -/
structure LeafRec (K V : Type) where
  entries : List (K × V)
  next : Option Nat
  deriving Repr, DecidableEq

/-- A tree skeleton whose leaves are heap ids. -/
inductive NodeC (K : Type) where
  | leafRef (id : Nat)
  | internal (keys : List K) (children : List (NodeC K))
  deriving Repr

/-- The shared address space: allocated leaf records and a fresh-id
counter. -/
structure World (K V : Type) where
  heap : List (Nat × LeafRec K V)
  fresh : Nat
  deriving Repr

/-- Dereference a leaf id. -/
def heapGet (w : World K V) (id : Nat) : Option (LeafRec K V) :=
  (w.heap.find? (fun p => p.1 == id)).map Prod.snd

/-- Overwrite the record of a leaf id (mutation through a shared pointer). -/
def heapSet (w : World K V) (id : Nat) (r : LeafRec K V) : World K V :=
  ⟨w.heap.map (fun p => if p.1 = id then (id, r) else p), w.fresh⟩

/-- `std::make_shared<LeafNode>` / `new LeafNode`: allocate a fresh record. -/
def alloc (w : World K V) (r : LeafRec K V) : World K V × Nat :=
  (⟨w.heap ++ [(w.fresh, r)], w.fresh + 1⟩, w.fresh)

/-- Variant C `find_leaf` (BP-Tree.tpp 2371-2388): identical descent to
variant B (advance while `is_less_or_eq(keys_[i], key)`), returning the
reached leaf's id. -/
def findLeafRef [LinearOrder K] : NodeC K → K → Option Nat
  | .leafRef id, _ => some id
  | .internal ks cs, k =>
    if h : VB.childIdx ks k < cs.length then findLeafRef cs[VB.childIdx ks k] k
    else none
decreasing_by
  have := List.sizeOf_lt_of_mem (List.getElem_mem h)
  simp only [NodeC.internal.sizeOf_spec]
  omega

/-- A whole variant-C tree: its view of the address space, `root_`, and
`size_`. -/
structure TreeC (K V : Type) where
  world : World K V
  root : Option (NodeC K)
  size : Nat
  deriving Repr

/-- Variant C `split_child(parent, child_index)` (BP-Tree.tpp 2278-2360)
without the trailing `size_++` (line 2359), which the caller applies: split
the designated child (allocating the right half; for a leaf the new
right half inherits the old `next_` and the old leaf's `next_` is set to
it), insert separator and new child into the parent, and recurse while the
parent `is_full()` (fueled). -/
def splitChildC [Inhabited K] [Inhabited V] (Order : Nat) :
    Nat → World K V → NodeC K → Nat → World K V × NodeC K
  | 0, w, parent, _ => (w, parent)
  | fuel + 1, w, parent, ci =>
    match parent with
    | .leafRef id => (w, .leafRef id)
    | .internal ks cs =>
      match cs.getD ci (.leafRef 0) with
      | .internal cks ccs =>
        let median := cks.getD ((Order - 1) / 2) default
        let newNode := NodeC.internal (cks.drop ((Order - 1) / 2 + 1)) (ccs.drop ((Order - 1) / 2 + 1))
        let child' := NodeC.internal (cks.take ((Order - 1) / 2)) (ccs.take ((Order - 1) / 2 + 1))
        let parent' := NodeC.internal (insertAt ks ci median)
          (insertAt (cs.set ci child') (ci + 1) newNode)
        if Order - 1 ≤ (insertAt ks ci median).length then
          splitChildC Order fuel w parent' ci
        else (w, parent')
      | .leafRef id =>
        match heapGet w id with
        | none => (w, parent)
        | some lr =>
          let mid := Order / 2
          let allocated := alloc w ⟨lr.entries.drop mid, lr.next⟩
          let w2 := heapSet allocated.1 id ⟨lr.entries.take mid, some allocated.2⟩
          let sep := (lr.entries.getD mid default).1
          let parent' := NodeC.internal (insertAt ks ci sep)
            (insertAt (cs.set ci (.leafRef id)) (ci + 1) (.leafRef allocated.2))
          if Order - 1 ≤ (insertAt ks ci sep).length then
            splitChildC Order fuel w2 parent' ci
          else (w2, parent')

/-- Variant C `insert` (BP-Tree.tpp 2474-2511): same shape as variant B —
empty tree seeds a root leaf, duplicates throw, a full leaf triggers
`split_child(root_, 0)` and a retry, otherwise the pair is `push_back`ed
at the end of the located leaf. -/
def insertC [LinearOrder K] [Inhabited K] [Inhabited V] (Order : Nat) :
    Nat → TreeC K V → K → V → Except Err (TreeC K V)
  | 0, _, _, _ => .error .fuelOut
  | fuel + 1, t, k, v =>
    match t.root with
    | none =>
      let allocated := alloc t.world ⟨[(k, v)], none⟩
      .ok ⟨allocated.1, some (.leafRef allocated.2), t.size + 1⟩
    | some root =>
      match findLeafRef root k with
      | none => .error .leafNotFound
      | some id =>
        match heapGet t.world id with
        | none => .error .leafNotFound
        | some lr =>
          if ((lr.entries.map Prod.fst)[lowerBound (lr.entries.map Prod.fst) k]?).any
              (fun x => decide (x = k)) then
            .error .dupKey
          else if Order - 1 ≤ lr.entries.length then
            let root1 := match root with
              | .leafRef rid => NodeC.internal [] [.leafRef rid]
              | n => n
            let split := splitChildC Order (fuel + 1) t.world root1 0
            match insertC Order fuel ⟨split.1, some split.2, t.size + 1⟩ k v with
            | .error e => .error e
            | .ok t' => .ok ⟨t'.world, t'.root, t'.size + 1⟩
          else
            .ok ⟨heapSet t.world id ⟨lr.entries ++ [(k, v)], lr.next⟩, some root, t.size + 1⟩

/-- Run variant-C insertions left to right. -/
def insertSeqC [LinearOrder K] [Inhabited K] [Inhabited V] (Order fuel : Nat)
    (t : TreeC K V) : List (K × V) → Except Err (TreeC K V)
  | [] => .ok t
  | (k, v) :: rest =>
    match insertC Order fuel t k v with
    | .error e => .error e
    | .ok t' => insertSeqC Order fuel t' rest

mutual

/-- Variant C `copy_nodes` (BP-Tree.tpp 2895-2936): clone an internal
subtree recursively; a leaf clone copies `keys_`, `values_` AND the
`next_` pointer (line 2934) — the clone's chain therefore continues into
the ORIGINAL tree's leaves.  Fueled for the nested recursion. -/
def copyNodes : Nat → World K V → NodeC K → World K V × NodeC K
  | 0, w, n => (w, n)
  | _ + 1, w, .leafRef id =>
    match heapGet w id with
    | none => (w, .leafRef id)
    | some lr =>
      let allocated := alloc w ⟨lr.entries, lr.next⟩
      (allocated.1, .leafRef allocated.2)
  | fuel + 1, w, .internal ks cs =>
    let r := copyChildren fuel w cs
    (r.1, .internal ks r.2)

/-- Clone a child list left to right, threading the address space. -/
def copyChildren : Nat → World K V → List (NodeC K) → World K V × List (NodeC K)
  | 0, w, _ => (w, [])
  | _ + 1, w, [] => (w, [])
  | fuel + 1, w, c :: rest =>
    let r := copyNodes fuel w c
    let r2 := copyChildren fuel r.1 rest
    (r2.1, r.2 :: r2.2)

end

/-- Variant C copy constructor (BP-Tree.tpp 2939-2956): clone the root
with `copy_nodes` and take over `size_`. -/
def copyTree (fuel : Nat) (t : TreeC K V) : World K V × TreeC K V :=
  match t.root with
  | none => (t.world, ⟨t.world, none, 0⟩)
  | some root =>
    let r := copyNodes fuel t.world root
    (r.1, ⟨r.1, some r.2, t.size⟩)

/-- Walk a leaf's `next_` chain collecting pairs, exactly as the forward
iterator does (`operator++`, BP-Tree.tpp 2192-2203). -/
def chainFrom (w : World K V) : Nat → Option Nat → List (K × V)
  | _, none => []
  | 0, some _ => []
  | fuel + 1, some id =>
    match heapGet w id with
    | none => []
    | some lr => lr.entries ++ chainFrom w fuel lr.next

/-- Descend through first children to the leftmost leaf (how iteration
must start; variant C's own `begin()` at BP-Tree.tpp 2858-2866 does
`std::get<LeafNodePtr>(root_)` and throws outright on an internal root,
an additional defect). -/
def leftmostLeafRef : NodeC K → Option Nat
  | .leafRef id => some id
  | .internal _ [] => none
  | .internal _ (c :: _) => leftmostLeafRef c

/-- The key-value sequence a full iteration of the tree yields: the chain
from the leftmost leaf. -/
def treeChain (fuel : Nat) (w : World K V) (root : Option (NodeC K)) : List (K × V) :=
  match root with
  | none => []
  | some n => chainFrom w fuel (leftmostLeafRef n)

end BPTree.VC

namespace BPTree

/-! Concrete variant-C scenario (claim C5). -/

/-- C5 scenario, step 1: build tree `A` with `Order = 4` by inserting
`(10,"a") (20,"b") (30,"c") (40,"d")` (two leaves after the split). -/
def c5A : VC.TreeC Nat String :=
  match VC.insertSeqC 4 9 ⟨⟨[], 0⟩, none, 0⟩
      [(10, "a"), (20, "b"), (30, "c"), (40, "d")] with
  | .ok t => t
  | .error _ => ⟨⟨[], 0⟩, none, 0⟩

/-- C5 scenario, step 2: `B = copy(A)` via variant C's copy constructor;
the pair is the shared address space after the copy and tree `B`. -/
def c5copy : VC.World Nat String × VC.TreeC Nat String :=
  VC.copyTree 9 c5A

/-- C5 scenario, step 3: insert `(35,"e")` into `A` (a plain `push_back`
into `A`'s right leaf; tree `B` is not touched). -/
def c5AfterA : VC.TreeC Nat String :=
  match VC.insertC 4 9 ⟨c5copy.1, c5A.root, c5A.size⟩ 35 "e" with
  | .ok t => t
  | .error _ => ⟨⟨[], 0⟩, none, 0⟩

/-- What iterating `B` yields right after the copy. -/
def c5ChainBBefore : List (Nat × String) :=
  VC.treeChain 9 c5copy.1 (c5copy.2).root

/-- What iterating `B` yields after the insert into `A`. -/
def c5ChainBAfter : List (Nat × String) :=
  VC.treeChain 9 c5AfterA.world (c5copy.2).root

/-! The composite key (claim C9). -/

/-- `CompositeKey<int, std::string>` (BP-Tree.hpp 20-43): a positional
tuple of an `int` and a `std::string`. -/
structure CKey where
  a : Int
  b : String
  deriving Repr, DecidableEq

instance : Inhabited CKey := ⟨⟨0, ""⟩⟩

/-- `CompositeKey::operator<` (Composite-Key.tpp 20-23):
`parameters_ < other.parameters_`, which is `std::tuple`'s comparison:
if the first components differ the smaller tuple is the one with the
smaller first component, otherwise the second components decide. -/
def CKey.lt (x y : CKey) : Bool :=
  if x.a < y.a then true
  else if y.a < x.a then false
  else decide (x.b < y.b)

/-- The linear order a `BPlusTree<CompositeKey<int, string>, ...>` keyed
with `std::less<CompositeKey<...>>` uses: the lexicographic order on the
component pair (shown below to agree with `CKey.lt`). -/
instance : LinearOrder CKey :=
  LinearOrder.lift' (fun k => toLex (k.a, k.b)) (by
    intro x y h
    have h2 : (x.a, x.b) = (y.a, y.b) := by simpa [toLex] using h
    cases x
    cases y
    simp_all)

/-- C9 scenario: default `Order = 128`, insert the composite keys
`(2,"b") → w, (1,"c") → x, (1,"a") → y, (2,"a") → z` with variant A's
`insert` (the variant whose `begin()` the claim cites). -/
def c9run : Except Err (TreeState CKey String) :=
  VA.insertSeq 128 ⟨none, 0⟩
    [(⟨2, "b"⟩, "w"), (⟨1, "c"⟩, "x"), (⟨1, "a"⟩, "y"), (⟨2, "a"⟩, "z")]

/-- The value sequence a full iteration of the C9 tree yields. -/
def c9vals : Option (List String) :=
  match c9run with
  | .ok s => some ((s.root.elim [] Node.entriesOf).map Prod.snd)
  | .error _ => none

/-- The range predicate of the specification: `from <= k <= to`, both
bounds inclusive. -/
def inRange [LinearOrder K] (f t : K) (e : K × V) : Bool :=
  decide (f ≤ e.1) && decide (e.1 ≤ t)

/-- All keys stored in a tree (in leaf-chain order). -/
def treeKeys (r : Option (Node K V)) : List K :=
  (r.elim [] Node.entriesOf).map Prod.fst

end BPTree

/-! ### Proof infrastructure -/

namespace BPTree

/-- Strong induction on the size of a node (the nested `children` list
rules out plain structural induction). -/
theorem Node.strongInd {K V : Type} {motive : Node K V → Prop}
    (ind : ∀ n, (∀ c : Node K V, sizeOf c < sizeOf n → motive c) → motive n) :
    ∀ n : Node K V, motive n := by
  intro n
  generalize hsz : sizeOf n = sz
  induction sz using Nat.strong_induction_on generalizing n with
  | _ sz ih =>
    subst hsz
    exact ind n fun c hc => ih (sizeOf c) hc c rfl

/-- A child is smaller than its internal node. -/
theorem Node.sizeOf_child {K V : Type} {ks : List K} {cs : List (Node K V)} {c : Node K V}
    (hc : c ∈ cs) : sizeOf c < sizeOf (Node.internal ks cs) := by
  have := List.sizeOf_lt_of_mem hc
  simp only [Node.internal.sizeOf_spec]
  omega

theorem Node.leavesOf_leaf {K V : Type} (es : List (K × V)) :
    (Node.leaf es : Node K V).leavesOf = [es] := by
  rw [Node.leavesOf]

theorem Node.leavesOf_internal {K V : Type} (ks : List K) (cs : List (Node K V)) :
    (Node.internal ks cs).leavesOf = (cs.map Node.leavesOf).flatten := by
  rw [Node.leavesOf, List.attach_map_coe]

theorem flatten_flatten (L : List (List (List α))) :
    L.flatten.flatten = (L.map List.flatten).flatten := by
  induction L with
  | nil => rfl
  | cons x xs ih => simp [ih]

theorem Node.entriesOf_leaf {K V : Type} (es : List (K × V)) :
    (Node.leaf es : Node K V).entriesOf = es := by
  simp [Node.entriesOf, Node.leavesOf_leaf]

theorem Node.entriesOf_internal {K V : Type} (ks : List K) (cs : List (Node K V)) :
    (Node.internal ks cs).entriesOf = (cs.map Node.entriesOf).flatten := by
  simp only [Node.entriesOf, Node.leavesOf_internal, flatten_flatten, List.map_map]
  rfl

theorem lowerBound_le_length [LinearOrder K] (l : List K) (k : K) :
    lowerBound l k ≤ l.length := by
  induction l with
  | nil => simp [lowerBound]
  | cons x xs ih =>
    by_cases h : x < k <;> simp [lowerBound, h] <;> omega

/-- Every element skipped by `lower_bound` is `< key` (no sortedness
needed: the scan stops at the first element not `< key`). -/
theorem lt_of_mem_take_lowerBound [LinearOrder K] {l : List K} {k x : K}
    (hx : x ∈ l.take (lowerBound l k)) : x < k := by
  induction l with
  | nil => simp [lowerBound] at hx
  | cons y ys ih =>
    by_cases h : y < k
    · simp only [lowerBound, if_pos h, List.take_succ_cons, List.mem_cons] at hx
      rcases hx with rfl | hx
      · exact h
      · exact ih hx
    · simp [lowerBound, h] at hx

/-- On a sorted list, every element at or after the `lower_bound` position
is `≥ key`. -/
theorem le_of_mem_drop_lowerBound [LinearOrder K] {l : List K} {k x : K}
    (hs : List.Pairwise (· < ·) l) (hx : x ∈ l.drop (lowerBound l k)) : k ≤ x := by
  induction l with
  | nil => simp [lowerBound] at hx
  | cons y ys ih =>
    rcases List.pairwise_cons.1 hs with ⟨hy, hys⟩
    by_cases h : y < k
    · simp only [lowerBound, if_pos h, List.drop_succ_cons] at hx
      exact ih hys hx
    · simp only [lowerBound, if_neg h, List.drop_zero, List.mem_cons] at hx
      rcases hx with rfl | hx
      · exact not_lt.1 h
      · exact le_of_lt (lt_of_le_of_lt (not_lt.1 h) (hy x hx))

theorem VA.shapeWFb_internal {K V : Type} [LinearOrder K] {ks : List K} {cs : List (Node K V)}
    (h : VA.shapeWFb (.internal ks cs) = true) :
    ks ≠ [] ∧ cs.length = ks.length + 1 ∧ ∀ c ∈ cs, VA.shapeWFb c = true := by
  rw [VA.shapeWFb] at h
  simp only [Bool.and_eq_true, decide_eq_true_eq, List.all_eq_true] at h
  refine ⟨h.1.1, h.1.2, ?_⟩
  intro c hc
  exact h.2 ⟨c, hc⟩ (List.mem_attach _ _)

theorem VA.sepWFb_internal {K V : Type} [LinearOrder K] {ks : List K} {cs : List (Node K V)}
    (h : VA.sepWFb (.internal ks cs) = true) :
    (∀ (j : Nat) (hj : j < ks.length) (hj' : j < cs.length),
        ∀ e ∈ Node.entriesOf (cs.get ⟨j, hj'⟩), e.1 < ks.get ⟨j, hj⟩) ∧
      ∀ c ∈ cs, VA.sepWFb c = true := by
  rw [VA.sepWFb] at h
  simp only [Bool.and_eq_true, List.all_eq_true, decide_eq_true_eq] at h
  constructor
  · intro j hj hj' e he
    have hlen : j < (cs.zip ks).length := by
      simp [List.length_zip]
      omega
    have hmem : (cs.get ⟨j, hj'⟩, ks.get ⟨j, hj⟩) ∈ cs.zip ks := by
      have heq : (cs.zip ks).get ⟨j, hlen⟩ = (cs.get ⟨j, hj'⟩, ks.get ⟨j, hj⟩) := by
        simp [List.getElem_zip]
      rw [← heq]
      exact (cs.zip ks).get_mem _ _
    exact h.1 _ hmem e he
  · intro c hc
    exact h.2 ⟨c, hc⟩ (List.mem_attach _ _)

end BPTree

namespace BPTree

theorem sum_split_at {l : List Nat} {i : Nat} (hi : i < l.length) :
    l.sum = (l.take i).sum + l.get ⟨i, hi⟩ + (l.drop (i + 1)).sum := by
  conv_lhs => rw [← List.take_append_drop i l]
  rw [List.sum_append, List.drop_eq_getElem_cons hi]
  simp only [List.sum_cons, List.get_eq_getElem]
  omega

theorem take_flatten_decomp {α : Type _} (L : List (List α)) (i : Nat) (hi : i < L.length)
    (r : Nat) (hr : r ≤ (L.get ⟨i, hi⟩).length) :
    L.flatten.take (((L.take i).map List.length).sum + r) =
      (L.take i).flatten ++ (L.get ⟨i, hi⟩).take r := by
  induction L generalizing i with
  | nil => exact absurd hi (Nat.not_lt_zero i)
  | cons x xs ih =>
    cases i with
    | zero =>
      simp only [List.take_zero, List.map_nil, List.sum_nil, Nat.zero_add, List.flatten_nil,
        List.nil_append, List.flatten_cons, List.get]
      exact List.take_append_of_le_length hr
    | succ i' =>
      have hi' : i' < xs.length := Nat.lt_of_succ_lt_succ hi
      simp only [List.take_succ_cons, List.map_cons, List.sum_cons, List.flatten_cons, List.get]
      rw [Nat.add_assoc, List.take_append, ih i' hi' hr]
      simp [List.append_assoc]

theorem VA.clampIdx_le {i m : Nat} (h : i ≤ m) : VA.clampIdx i m ≤ m := by
  unfold VA.clampIdx
  split <;> omega

theorem VA.clampIdx_le_self (i m : Nat) : VA.clampIdx i m ≤ i := by
  unfold VA.clampIdx
  split <;> omega

/-- Under the shape invariant, `find_leaf` lands on an existing leaf: its
position is inside the leaf sequence. -/
theorem VA.findLeafIdx_lt {K V : Type} [LinearOrder K] [Inhabited K] [Inhabited V] :
    ∀ n : Node K V, VA.shapeWFb n = true →
      ∀ k, VA.findLeafIdx n k < (Node.leavesOf n).length := by
  intro n
  induction n using Node.strongInd with
  | ind n ih =>
    intro hs k
    cases n with
    | leaf es =>
      rw [VA.findLeafIdx, Node.leavesOf_leaf]
      simp
    | internal ks cs =>
      obtain ⟨hne, hlen, hcs⟩ := VA.shapeWFb_internal hs
      have hlb : lowerBound ks k ≤ ks.length := lowerBound_le_length ks k
      have hi : VA.clampIdx (lowerBound ks k) ks.length < cs.length := by
        have := VA.clampIdx_le hlb
        omega
      rw [VA.findLeafIdx, dif_pos hi, Node.leavesOf_internal]
      have hrec : VA.findLeafIdx cs[VA.clampIdx (lowerBound ks k) ks.length] k <
          (Node.leavesOf cs[VA.clampIdx (lowerBound ks k) ks.length]).length := by
        refine ih _ (Node.sizeOf_child (List.getElem_mem hi)) ?_ k
        exact hcs _ (List.getElem_mem hi)
      have hsplit := sum_split_at (l := (cs.map Node.leavesOf).map List.length)
        (i := VA.clampIdx (lowerBound ks k) ks.length)
        (by simpa using hi)
      rw [List.length_flatten]
      have htake : (((cs.map Node.leavesOf).map List.length).take
            (VA.clampIdx (lowerBound ks k) ks.length)).sum =
          ((cs.take (VA.clampIdx (lowerBound ks k) ks.length)).map
            (fun c => (Node.leavesOf c).length)).sum := by
        rw [← List.map_take, ← List.map_take, List.map_map]
        rfl
      have hget : ((cs.map Node.leavesOf).map List.length).get
            ⟨VA.clampIdx (lowerBound ks k) ks.length, by simpa using hi⟩ =
          (Node.leavesOf cs[VA.clampIdx (lowerBound ks k) ks.length]).length := by
        simp
      omega

/-- Descent soundness (the key fact about variant A's `find_leaf`): every
entry stored strictly LEFT of the leaf that `find_leaf(key)` reaches has
key `< key`.  Equivalently, all entries with key `≥ key` are in the
reached leaf or further right along the chain. -/
theorem VA.findLeaf_prefix_lt {K V : Type} [LinearOrder K] [Inhabited K] [Inhabited V] :
    ∀ n : Node K V, VA.shapeWFb n = true → VA.sepWFb n = true →
      ∀ k, ∀ e ∈ ((Node.leavesOf n).take (VA.findLeafIdx n k)).flatten, e.1 < k := by
  intro n
  induction n using Node.strongInd with
  | ind n ih =>
    intro hs hsep k e he
    cases n with
    | leaf es =>
      rw [VA.findLeafIdx] at he
      simp at he
    | internal ks cs =>
      obtain ⟨hne, hlen, hcs⟩ := VA.shapeWFb_internal hs
      obtain ⟨hsepj, hsepc⟩ := VA.sepWFb_internal hsep
      have hlb : lowerBound ks k ≤ ks.length := lowerBound_le_length ks k
      have hi : VA.clampIdx (lowerBound ks k) ks.length < cs.length := by
        have := VA.clampIdx_le hlb
        omega
      rw [VA.findLeafIdx, dif_pos hi, Node.leavesOf_internal] at he
      have hidx : VA.clampIdx (lowerBound ks k) ks.length < (cs.map Node.leavesOf).length := by
        simpa using hi
      have hrle : VA.findLeafIdx cs[VA.clampIdx (lowerBound ks k) ks.length] k ≤
          ((cs.map Node.leavesOf).get ⟨VA.clampIdx (lowerBound ks k) ks.length, hidx⟩).length := by
        have h1 : (cs.map Node.leavesOf).get
            ⟨VA.clampIdx (lowerBound ks k) ks.length, hidx⟩ =
            Node.leavesOf cs[VA.clampIdx (lowerBound ks k) ks.length] := by
          simp
        rw [h1]
        exact Nat.le_of_lt (VA.findLeafIdx_lt _ (hcs _ (List.getElem_mem hi)) k)
      have htake : (((cs.map Node.leavesOf).take
            (VA.clampIdx (lowerBound ks k) ks.length)).map List.length).sum =
          ((cs.take (VA.clampIdx (lowerBound ks k) ks.length)).map
            (fun c => (Node.leavesOf c).length)).sum := by
        rw [← List.map_take, List.map_map]
        rfl
      rw [← htake, take_flatten_decomp (cs.map Node.leavesOf) _ hidx _ hrle] at he
      rw [List.flatten_append, List.mem_append] at he
      have hclt : VA.clampIdx (lowerBound ks k) ks.length < ks.length := by
        have hkpos : 0 < ks.length := List.length_pos.2 hne
        unfold VA.clampIdx
        split <;> omega
      rcases he with he | he
      · -- the entry sits under one of the children left of the descent index
        rw [flatten_flatten] at he
        have hmapeq : (((cs.map Node.leavesOf).take
              (VA.clampIdx (lowerBound ks k) ks.length)).map List.flatten) =
            (cs.take (VA.clampIdx (lowerBound ks k) ks.length)).map Node.entriesOf := by
          rw [← List.map_take, List.map_map]
          rfl
        rw [hmapeq, List.mem_flatten] at he
        obtain ⟨blk, hblk, heblk⟩ := he
        rw [List.mem_map] at hblk
        obtain ⟨c, hc, rfl⟩ := hblk
        rw [List.mem_iff_getElem] at hc
        obtain ⟨j, hj, hcj⟩ := hc
        have hjlt : j < VA.clampIdx (lowerBound ks k) ks.length := by
          simp only [List.length_take] at hj
          omega
        have hjcs : j < cs.length := by omega
        have hjks : j < ks.length := by omega
        have hcj' : c = cs[j] := by
          rw [← hcj]
          simp
        have h1 : e.1 < ks.get ⟨j, hjks⟩ := by
          refine hsepj j hjks hjcs e ?_
          have : cs.get ⟨j, hjcs⟩ = c := by
            rw [hcj']
            simp
          rw [this]
          exact heblk
        have h2 : ks.get ⟨j, hjks⟩ < k := by
          refine lt_of_mem_take_lowerBound (l := ks) (k := k) ?_
          rw [List.mem_iff_getElem]
          have hjlb : j < lowerBound ks k := by
            have := VA.clampIdx_le_self (lowerBound ks k) ks.length
            omega
          refine ⟨j, ?_, ?_⟩
          · simp only [List.length_take]
            omega
          · simp
        exact lt_trans h1 h2
      · -- the entry is left of the reached position inside the descent child
        have hflat : ((cs.map Node.leavesOf).get
            ⟨VA.clampIdx (lowerBound ks k) ks.length, hidx⟩) =
            Node.leavesOf cs[VA.clampIdx (lowerBound ks k) ks.length] := by
          simp
        rw [hflat] at he
        have hsub : VA.shapeWFb cs[VA.clampIdx (lowerBound ks k) ks.length] = true :=
          hcs _ (List.getElem_mem hi)
        have hsub2 : VA.sepWFb cs[VA.clampIdx (lowerBound ks k) ks.length] = true :=
          hsepc _ (List.getElem_mem hi)
        exact ih _ (Node.sizeOf_child (List.getElem_mem hi)) hsub hsub2 k e (by
          rw [List.mem_flatten] at he ⊢
          exact he)

end BPTree

namespace BPTree

/-- The inner loop of `range_search` collects the values up to the first
key past `to` and reports whether it stopped there (no sortedness
needed). -/
theorem VA.collectLeafVals_spec {K V : Type} [LinearOrder K] (t : K) (l : List (K × V)) :
    VA.collectLeafVals t l =
      ((l.takeWhile (fun e => decide (e.1 ≤ t))).map Prod.snd,
        l.any (fun e => decide (t < e.1))) := by
  induction l with
  | nil => rfl
  | cons e es ih =>
    by_cases h : t < e.1
    · rw [VA.collectLeafVals, if_pos h]
      have h1 : (decide (e.1 ≤ t)) = false := by
        simp [not_le.2 h]
      simp [List.takeWhile_cons, h1, h]
    · rw [VA.collectLeafVals, if_neg h]
      have h1 : (decide (e.1 ≤ t)) = true := by
        simp [not_lt.1 h]
      simp [List.takeWhile_cons, h1, ih, h]

/-- On a leaf with sorted keys, filtering by `key ≤ to` equals stopping at
the first key past `to`. -/
theorem filter_le_eq_takeWhile {K V : Type} [LinearOrder K] (t : K) :
    ∀ l : List (K × V), List.Pairwise (· < ·) (l.map Prod.fst) →
      l.filter (fun e => decide (e.1 ≤ t)) = l.takeWhile (fun e => decide (e.1 ≤ t)) := by
  intro l hl
  induction l with
  | nil => rfl
  | cons e es ih =>
    rw [List.map_cons, List.pairwise_cons] at hl
    by_cases h : e.1 ≤ t
    · simp only [List.filter_cons, List.takeWhile_cons, decide_eq_true h]
      simp [ih hl.2]
    · simp only [List.filter_cons, List.takeWhile_cons, decide_eq_false h]
      have : es.filter (fun e => decide (e.1 ≤ t)) = [] := by
        rw [List.filter_eq_nil_iff]
        intro a ha
        have : e.1 < a.1 := hl.1 a.1 (List.mem_map_of_mem Prod.fst ha)
        simp only [decide_eq_true_eq]
        push_neg at h
        exact not_le.2 (lt_trans h this)
      simp [this]

/-- The chain walk of `range_search` computes exactly the in-range
entries of the remaining chain, provided the keys along the chain are
sorted. -/
theorem VA.scanLeaves_eq_filter {K V : Type} [LinearOrder K] (f t : K) :
    ∀ L : List (List (K × V)), List.Pairwise (· < ·) (L.flatten.map Prod.fst) →
      VA.scanLeaves f t L = (L.flatten.filter (inRange f t)).map Prod.snd := by
  intro L
  induction L with
  | nil => intro _; rfl
  | cons l rest ih =>
    intro hst
    rw [List.flatten_cons, List.map_append, List.pairwise_append] at hst
    obtain ⟨hl, hrest, hcross⟩ := hst
    have hA : ∀ e ∈ l.take (lowerBound (l.map Prod.fst) f), e.1 < f := by
      intro e he
      refine lt_of_mem_take_lowerBound (l := l.map Prod.fst) (k := f) ?_
      rw [← List.map_take]
      exact List.mem_map_of_mem Prod.fst he
    have hB : ∀ e ∈ l.drop (lowerBound (l.map Prod.fst) f), f ≤ e.1 := by
      intro e he
      refine le_of_mem_drop_lowerBound (l := l.map Prod.fst) (k := f) hl ?_
      rw [← List.map_drop]
      exact List.mem_map_of_mem Prod.fst he
    have hC : List.Pairwise (· < ·)
        ((l.drop (lowerBound (l.map Prod.fst) f)).map Prod.fst) := by
      rw [List.map_drop]
      exact hl.sublist (List.drop_sublist _ _)
    have hfilterl : l.filter (inRange f t) =
        (l.drop (lowerBound (l.map Prod.fst) f)).filter (inRange f t) := by
      conv_lhs => rw [← List.take_append_drop (lowerBound (l.map Prod.fst) f) l]
      rw [List.filter_append]
      have : (l.take (lowerBound (l.map Prod.fst) f)).filter (inRange f t) = [] := by
        rw [List.filter_eq_nil_iff]
        intro e he
        simp only [inRange, Bool.and_eq_true, decide_eq_true_eq, not_and]
        intro hf
        exact absurd hf (not_le.2 (hA e he))
      rw [this, List.nil_append]
    have hfilterd : (l.drop (lowerBound (l.map Prod.fst) f)).filter (inRange f t) =
        (l.drop (lowerBound (l.map Prod.fst) f)).filter (fun e => decide (e.1 ≤ t)) := by
      refine List.filter_congr ?_
      intro e he
      simp only [inRange]
      rw [decide_eq_true (hB e he)]
      simp
    rw [VA.scanLeaves, VA.collectLeafVals_spec, List.flatten_cons]
    by_cases hstop : (l.drop (lowerBound (l.map Prod.fst) f)).any (fun e => decide (t < e.1))
    · simp only [hstop, if_true]
      rw [List.any_eq_true] at hstop
      obtain ⟨e0, he0, he0t⟩ := hstop
      rw [decide_eq_true_eq] at he0t
      have hrestnil : (rest.flatten).filter (inRange f t) = [] := by
        rw [List.filter_eq_nil_iff]
        intro b hb
        have h1 : e0.1 < b.1 := by
          refine hcross e0.1 ?_ b.1 (List.mem_map_of_mem Prod.fst hb)
          exact List.mem_map_of_mem Prod.fst (List.mem_of_mem_drop he0)
        simp only [inRange, Bool.and_eq_true, decide_eq_true_eq, not_and]
        intro _
        exact not_le.2 (lt_trans he0t h1)
      rw [List.filter_append, hrestnil, List.append_nil, hfilterl, hfilterd,
        filter_le_eq_takeWhile t _ hC]
    · simp only [hstop, if_false]
      rw [Bool.not_eq_true, List.any_eq_false] at hstop
      have halle : ∀ e ∈ l.drop (lowerBound (l.map Prod.fst) f), e.1 ≤ t := by
        intro e he
        have h2 := hstop e he
        simpa [not_lt] using h2
      have htw : (l.drop (lowerBound (l.map Prod.fst) f)).takeWhile
          (fun e => decide (e.1 ≤ t)) = l.drop (lowerBound (l.map Prod.fst) f) := by
        rw [List.takeWhile_eq_self_iff]
        intro e he
        exact decide_eq_true (halle e he)
      have hfd : (l.drop (lowerBound (l.map Prod.fst) f)).filter
          (fun e => decide (e.1 ≤ t)) = l.drop (lowerBound (l.map Prod.fst) f) := by
        rw [List.filter_eq_self]
        intro e he
        exact decide_eq_true (halle e he)
      rw [htw, List.filter_append, List.map_append, hfilterl, hfilterd, hfd, ih hrest]
      simp

/-- Variant A `range_search` computes exactly the values with
`from ≤ key ≤ to`, in chain order, on any well-formed tree. -/
theorem VA.rangeSearch_eq_filter {K V : Type} [LinearOrder K] [Inhabited K] [Inhabited V]
    (n : Node K V) (hwf : VA.WF n) (f t : K) :
    VA.rangeSearch (some n) f t =
      ((Node.entriesOf n).filter (inRange f t)).map Prod.snd := by
  obtain ⟨hs, hsep, hsorted⟩ := hwf
  have hidx : VA.findLeafIdx n f < (Node.leavesOf n).length := VA.findLeafIdx_lt n hs f
  have hsplit : Node.entriesOf n =
      ((Node.leavesOf n).take (VA.findLeafIdx n f)).flatten ++
        ((Node.leavesOf n).drop (VA.findLeafIdx n f)).flatten := by
    rw [← List.flatten_append, List.take_append_drop]
    rfl
  have hsorted' : List.Pairwise (· < ·)
      ((((Node.leavesOf n).drop (VA.findLeafIdx n f)).flatten).map Prod.fst) := by
    rw [hsplit, List.map_append, List.pairwise_append] at hsorted
    exact hsorted.2.1
  rw [VA.rangeSearch, VA.scanLeaves_eq_filter f t _ hsorted']
  rw [hsplit, List.filter_append]
  have hpre : (((Node.leavesOf n).take (VA.findLeafIdx n f)).flatten).filter
      (inRange f t) = [] := by
    rw [List.filter_eq_nil_iff]
    intro e he
    have := VA.findLeaf_prefix_lt n hs hsep f e he
    simp only [inRange, Bool.and_eq_true, decide_eq_true_eq, not_and]
    intro hf
    exact absurd hf (not_le.2 this)
  rw [hpre, List.nil_append]

end BPTree

namespace BPTree

/-- Under the shape invariant, the descent path of `find_leaf` designates
an actual leaf of the tree. -/
theorem VA.getAt_findLeafPath {K V : Type} [LinearOrder K] [Inhabited K] [Inhabited V] :
    ∀ n : Node K V, VA.shapeWFb n = true → ∀ k,
      ∃ es, VA.getAt n (VA.findLeafPath n k) = some (.leaf es) ∧ es ∈ Node.leavesOf n := by
  intro n
  induction n using Node.strongInd with
  | ind n ih =>
    intro hs k
    cases n with
    | leaf es =>
      refine ⟨es, ?_, ?_⟩
      · rw [VA.findLeafPath, VA.getAt]
      · rw [Node.leavesOf_leaf]
        simp
    | internal ks cs =>
      obtain ⟨hne, hlen, hcs⟩ := VA.shapeWFb_internal hs
      have hlb : lowerBound ks k ≤ ks.length := lowerBound_le_length ks k
      have hi : VA.clampIdx (lowerBound ks k) ks.length < cs.length := by
        have := VA.clampIdx_le hlb
        omega
      obtain ⟨es, hg, hm⟩ := ih cs[VA.clampIdx (lowerBound ks k) ks.length]
        (Node.sizeOf_child (List.getElem_mem hi)) (hcs _ (List.getElem_mem hi)) k
      refine ⟨es, ?_, ?_⟩
      · rw [VA.findLeafPath, dif_pos hi, VA.getAt]
        have hsome : cs[VA.clampIdx (lowerBound ks k) ks.length]? =
            some cs[VA.clampIdx (lowerBound ks k) ks.length] :=
          List.getElem?_eq_getElem hi
        rw [hsome]
        exact hg
      · rw [Node.leavesOf_internal, List.mem_flatten]
        exact ⟨Node.leavesOf cs[VA.clampIdx (lowerBound ks k) ks.length],
          List.mem_map_of_mem Node.leavesOf (List.getElem_mem hi), hm⟩

/-- Variant A `remove` of a key absent from the tree returns with the tree
unchanged: the only mutating statements are behind the equality check of
line 500. -/
theorem VA.remove_absent {K V : Type} [LinearOrder K] [Inhabited K] [Inhabited V]
    [DecidableEq V] (Order : Nat) (s : TreeState K V) (k : K)
    (hshape : s.root.all VA.shapeWFb = true)
    (habs : k ∉ treeKeys s.root) :
    VA.remove Order s k = s := by
  obtain ⟨r, sz⟩ := s
  cases r with
  | none => rfl
  | some n =>
    have hs : VA.shapeWFb n = true := by
      simpa [Option.all] using hshape
    obtain ⟨es, hget, hmem⟩ := VA.getAt_findLeafPath n hs k
    show VA.remove Order ⟨some n, sz⟩ k = ⟨some n, sz⟩
    rw [VA.remove]
    simp only
    rw [hget]
    cases hx : (es.map Prod.fst)[lowerBound (es.map Prod.fst) k]? with
    | none =>
      have hlen : es.length ≤ lowerBound (es.map Prod.fst) k := by
        simpa using List.getElem?_eq_none_iff.mp hx
      have hnone : es[lowerBound (es.map Prod.fst) k]? = none :=
        List.getElem?_eq_none_iff.mpr hlen
      simp [hnone]
    | some x =>
      have hxmem : x ∈ es.map Prod.fst := List.getElem?_mem hx
      have hxk : x ≠ k := by
        intro heq
        apply habs
        rw [List.mem_map] at hxmem
        obtain ⟨e, he, hex⟩ := hxmem
        have : e ∈ Node.entriesOf n := by
          rw [Node.entriesOf, List.mem_flatten]
          exact ⟨es, hmem, he⟩
        have : e.1 ∈ treeKeys (some n) := by
          simp only [treeKeys, Option.elim]
          exact List.mem_map_of_mem Prod.fst this
        rw [hex, heq] at this
        exact this
      have hor : k < x ∨ x < k := (Ne.symm hxk).lt_or_lt
      have hx' : Option.map Prod.fst es[lowerBound (es.map Prod.fst) k]? = some x := by
        rw [← List.getElem?_map]
        exact hx
      simp [hx', hor, Ne.symm hxk]

/-- `operator++` applied `a + b` times is `b` applications after `a`. -/
theorem VA.It.stepN_add {K V : Type} (a b : Nat) (it : VA.It K V) :
    VA.It.stepN (a + b) it = VA.It.stepN b (VA.It.stepN a it) := by
  induction a generalizing it with
  | zero => simp [VA.It.stepN]
  | succ a ih =>
    have h1 : a + 1 + b = (a + b) + 1 := by omega
    rw [h1]
    show VA.It.stepN (a + b) it.inc = _
    rw [ih]
    rfl

/-- Stepping through the remainder of the current leaf lands on the next
leaf at index 0. -/
theorem VA.It.stepN_leaf {K V : Type} (l : List (K × V)) (rest : List (List (K × V))) :
    ∀ j, j < l.length →
      VA.It.stepN (l.length - j) ⟨l :: rest, j⟩ = (⟨rest, 0⟩ : VA.It K V) := by
  intro j hj
  generalize hd : l.length - j = d
  induction d generalizing j with
  | zero => omega
  | succ d ihd =>
    show VA.It.stepN d (VA.It.inc ⟨l :: rest, j⟩) = _
    by_cases hend : l.length ≤ j + 1
    · have hd0 : d = 0 := by omega
      rw [VA.It.inc, if_pos hend, hd0]
      rfl
    · rw [VA.It.inc, if_neg hend]
      exact ihd (j + 1) (by omega) (by omega)

/-- Stepping once per entry consumes a chain of non-empty leaves
entirely, ending at the null iterator. -/
theorem VA.It.stepN_chain {K V : Type} :
    ∀ chain : List (List (K × V)), (∀ l ∈ chain, l ≠ []) →
      VA.It.stepN chain.flatten.length ⟨chain, 0⟩ = (⟨[], 0⟩ : VA.It K V) := by
  intro chain
  induction chain with
  | nil => intro _; rfl
  | cons l rest ih =>
    intro hne
    have hl : 0 < l.length :=
      List.length_pos.2 (hne l (List.mem_cons_self l rest))
    rw [List.flatten_cons, List.length_append]
    rw [VA.It.stepN_add]
    have h0 : VA.It.stepN l.length (⟨l :: rest, 0⟩ : VA.It K V) = ⟨rest, 0⟩ := by
      have := VA.It.stepN_leaf l rest 0 hl
      simpa using this
    rw [h0]
    exact ih (fun x hx => hne x (List.mem_cons_of_mem l hx))

end BPTree

/-! ### Claim theorems -/

namespace BPTree

/-- The Boolean translation of `CompositeKey::operator<` agrees with the
`LinearOrder` instance the tree embedding uses. -/
theorem CKey.lt_spec (x y : CKey) : x < y ↔ CKey.lt x y = true := by
  cases x with
  | mk p s =>
    cases y with
    | mk q t =>
      have hdef : ((⟨p, s⟩ : CKey) < ⟨q, t⟩) ↔ toLex (p, s) < toLex (q, t) := Iff.rfl
      rw [hdef, Prod.Lex.lt_iff]
      simp only [CKey.lt]
      rcases lt_trichotomy p q with h | h | h
      · simp [h]
      · subst h
        simp [lt_irrefl]
      · rw [if_neg h.not_lt, if_pos h]
        simp [h.ne', h.not_lt]

/-- **C1.** The claim says a second `insert(10, _)` raises `DuplicateKey`
and `find(10)` still returns `["v1"]`.  The cited `insert`
(BP-Tree.tpp 1577-1581) appends at the leaf's END but checks for the
duplicate only at the `lower_bound` position of the (hence unsorted) key
vector: inserting `(20,"w"), (10,"v1"), (10,"v2")` with `Order = 4`
succeeds all three times, the leaf holds both bindings of key 10, and
`find(10)` returns `["v1", "v2"]`. -/
theorem c1_duplicate_insert_accepted :
    c1run = .ok ⟨some (.leaf [(20, "w"), (10, "v1"), (10, "v2")]), 3⟩ ∧
    c1find = ["v1", "v2"] := by
  constructor
  · simp [c1run, VB.insertSeq, VB.insert, VB.findLeaf, VB.updateFindLeaf,
      VB.childIdx, VB.splitChild, lowerBound, insertAt]
  · simp [c1find, c1run, VB.insertSeq, VB.insert, VB.findLeaf, VB.updateFindLeaf,
      VB.childIdx, VB.splitChild, lowerBound, insertAt, VB.find]

/-- **C2.** The claim says one successful insert raises `size()` by
exactly one even across splits.  In the cited `insert`
(BP-Tree.tpp 1562-1600) an insert that splits the root increments `size_`
once before recursing, once in the recursive call's split branch and once
in its final leaf append: after inserting keys 1..4 with `Order = 4` the
counter reads 6 while the tree reachable from the root holds 4 pairs. -/
theorem c2_size_counter_mismatch :
    sizeCounterOf c2run = some 6 ∧ entryCountOf c2run = some 4 := by
  constructor <;>
    simp [c2run, VB.insertSeq, VB.insert, VB.findLeaf, VB.updateFindLeaf,
      VB.childIdx, VB.splitChild, lowerBound, insertAt, sizeCounterOf,
      entryCountOf, Node.entriesOf, Node.leavesOf]

/-- **C3.** The claim says keys inside any node are strictly increasing
and `begin()..end()` visits keys in increasing order.  The cited `insert`
(BP-Tree.tpp 1593-1597) pushes the new pair at the END of the leaf's
vectors regardless of order: after inserting `(20,"w")` then `(10,"x")`
with `Order = 4` the single leaf stores keys `[20, 10]`, which full
iteration visits in that non-increasing order. -/
theorem c3_node_keys_not_sorted :
    c3run = .ok ⟨some (.leaf [(20, "w"), (10, "x")]), 2⟩ ∧
    iterKeysOf c3run = some [20, 10] ∧
    ¬ List.Pairwise (· < ·) ([20, 10] : List Nat) := by
  refine ⟨?_, ?_, by decide⟩ <;>
    simp [c3run, VB.insertSeq, VB.insert, VB.findLeaf, VB.updateFindLeaf,
      VB.childIdx, VB.splitChild, lowerBound, insertAt, iterKeysOf,
      Node.entriesOf, Node.leavesOf]

/-- **C4.** CONFIRMED for every well-formed tree (shape invariant,
separator invariant, strictly increasing keys — the spec §3 invariants):
`range_search(from, to)` (BP-Tree.tpp 742-787) returns exactly the values
whose keys satisfy `from ≤ k ≤ to`, in the tree's ascending key order,
and returns `[]` on the empty root. -/
theorem c4_range_search_filter {K V : Type} [LinearOrder K] [Inhabited K] [Inhabited V]
    (n : Node K V) (f t : K) (hwf : VA.WF n) :
    VA.rangeSearch (some n) f t = ((Node.entriesOf n).filter (inRange f t)).map Prod.snd ∧
    List.Pairwise (· < ·) (((Node.entriesOf n).filter (inRange f t)).map Prod.fst) ∧
    VA.rangeSearch (none : Option (Node K V)) f t = [] := by
  refine ⟨VA.rangeSearch_eq_filter n hwf f t, ?_, rfl⟩
  have hp := hwf.2.2
  have hsub : (((Node.entriesOf n).filter (inRange f t)).map Prod.fst).Sublist
      ((Node.entriesOf n).map Prod.fst) :=
    ((Node.entriesOf n).filter_sublist).map Prod.fst
  exact hp.sublist hsub

/-- Witness for C4: the concrete Order-4 scenario of the claim.
`range_search(15, 35)` on the tree built from
`(10,"a") (20,"b") (30,"c") (40,"d")` returns `["b","c"]`, which is the
filter of the stored pairs. -/
theorem c4_range_search_filter_witness :
    VA.rangeSearch (some c4root) 15 35 = ["b", "c"] ∧
    VA.rangeSearch (some c4root) 15 35 =
      ((Node.entriesOf c4root).filter (inRange 15 35)).map Prod.snd := by
  have hwf : VA.WF c4root := by
    refine ⟨?_, ?_, ?_⟩ <;>
      simp [VA.WF, VA.shapeWFb, VA.sepWFb, c4root, Node.entriesOf, Node.leavesOf]
  have h := c4_range_search_filter c4root 15 35 hwf
  refine ⟨?_, h.1⟩
  simp [VA.rangeSearch, c4root, VA.findLeafIdx, VA.clampIdx,
    lowerBound, VA.scanLeaves, VA.collectLeafVals, Node.leavesOf]

/-- **C5.** The claim says a copied tree is independently mutable.  The
cited `copy_nodes` (BP-Tree.tpp 2924-2936) copies a leaf's `next_`
POINTER verbatim, so after the first cloned leaf the copy's leaf chain
continues through the ORIGINAL tree's leaves: with `Order = 4`, building
A from `(10,"a") (20,"b") (30,"c") (40,"d")`, copying it to B, then
inserting `(35,"e")` into A makes B's chain (from B's own root) yield the
new pair `(35,"e")` as well. -/
theorem c5_copy_shares_next_chain :
    c5ChainBBefore = [(10, "a"), (20, "b"), (30, "c"), (40, "d")] ∧
    c5ChainBAfter = [(10, "a"), (20, "b"), (30, "c"), (40, "d"), (35, "e")] ∧
    c5ChainBAfter ≠ c5ChainBBefore := by
  have h1 : c5ChainBBefore = [(10, "a"), (20, "b"), (30, "c"), (40, "d")] := by
    simp [c5ChainBBefore, c5copy, c5A, VC.insertSeqC, VC.insertC, VC.splitChildC,
      VC.findLeafRef, VB.childIdx, lowerBound, insertAt, VC.heapGet, VC.heapSet,
      VC.alloc, VC.copyTree, VC.copyNodes, VC.copyChildren, VC.treeChain,
      VC.chainFrom, VC.leftmostLeafRef]
  have h2 : c5ChainBAfter = [(10, "a"), (20, "b"), (30, "c"), (40, "d"), (35, "e")] := by
    simp [c5ChainBAfter, c5AfterA, c5copy, c5A, VC.insertSeqC, VC.insertC,
      VC.splitChildC, VC.findLeafRef, VB.childIdx, lowerBound, insertAt,
      VC.heapGet, VC.heapSet, VC.alloc, VC.copyTree, VC.copyNodes, VC.copyChildren,
      VC.treeChain, VC.chainFrom, VC.leftmostLeafRef]
  refine ⟨h1, h2, ?_⟩
  rw [h1, h2]
  decide

/-- **C6.** CONFIRMED (for trees satisfying the shape invariant):
`remove(k)` for an absent key `k` (BP-Tree.tpp 477-521) raises nothing
and returns with the tree state — root and `size_` — unchanged, and a
second call is likewise the identity. -/
theorem c6_remove_absent_idempotent_noop {K V : Type} [LinearOrder K] [Inhabited K]
    [Inhabited V] [DecidableEq V] (Order : Nat) (s : TreeState K V) (k : K)
    (hshape : s.root.all VA.shapeWFb = true)
    (habs : k ∉ treeKeys s.root) :
    VA.remove Order s k = s ∧ VA.remove Order (VA.remove Order s k) k = s := by
  have h1 := VA.remove_absent Order s k hshape habs
  exact ⟨h1, by rw [h1, h1]⟩

/-- Witness for C6: removing the never-inserted key 25 from the concrete
Order-4 tree twice leaves it equal to the starting tree. -/
theorem c6_remove_absent_witness :
    VA.remove 4 (⟨some c4root, 4⟩ : TreeState Nat String) 25 = ⟨some c4root, 4⟩ ∧
    VA.remove 4 (VA.remove 4 (⟨some c4root, 4⟩ : TreeState Nat String) 25) 25 =
      ⟨some c4root, 4⟩ :=
  c6_remove_absent_idempotent_noop 4 ⟨some c4root, 4⟩ 25
    (by simp [Option.all, VA.shapeWFb, c4root])
    (by simp [treeKeys, c4root, Node.entriesOf, Node.leavesOf])

/-- Counterexample for C7: in the Order-4 tree with separator 30 over
leaves `[(10,a),(20,b)]` and `[(30,c),(40,d)]`, the key 30 IS stored in
the tree, yet `find_leaf(30)` returns the LEFT leaf, which does not
contain it — the source uses `lower_bound` (first separator `≥ key`,
here index 0) where the spec's rule (first separator `> key`, here
index 1) would find the correct leaf.  So `find_leaf` does NOT return
the leaf whose interval contains the key. -/
theorem c7_findLeaf_counterexample :
    VA.findLeafEntries (some c4root) 30 = some [(10, "a"), (20, "b")] ∧
    (30 : Nat) ∈ treeKeys (some c4root) ∧
    (30 : Nat) ∉ ([(10, "a"), (20, "b")] : List (Nat × String)).map Prod.fst := by
  refine ⟨?_, ?_, by decide⟩
  · simp [VA.findLeafEntries, c4root, VA.findLeafIdx, VA.clampIdx, lowerBound,
      Node.leavesOf]
  · simp [treeKeys, c4root, Node.entriesOf, Node.leavesOf]

/-- **C7 (amended).** What the cited `find_leaf` (BP-Tree.tpp 149-189)
actually guarantees: `nullptr` on the empty root, the root itself when
the root is a leaf; on an internal node it descends through the child at
`lower_bound(separators, key)` — the smallest index with
`key ≤ separators[i]`, clamped to the last child — and the leaf reached
satisfies only the one-sided bound that every entry in leaves strictly to
its left has key `< key` (an entry equal to a separator may sit in the
leaf AFTER the one returned, as the counterexample shows). -/
theorem c7_findLeaf_amended {K V : Type} [LinearOrder K] [Inhabited K] [Inhabited V]
    (n : Node K V) (k : K) (hs : VA.shapeWFb n = true) (hsep : VA.sepWFb n = true) :
    VA.findLeafEntries (none : Option (Node K V)) k = none ∧
    (∀ es : List (K × V), VA.findLeafEntries (some (.leaf es)) k = some es) ∧
    VA.findLeafIdx n k < (Node.leavesOf n).length ∧
    (((Node.leavesOf n).take (VA.findLeafIdx n k)).flatten.all
      (fun e => decide (e.1 < k))) = true := by
  refine ⟨rfl, ?_, VA.findLeafIdx_lt n hs k, ?_⟩
  · intro es
    simp [VA.findLeafEntries, VA.findLeafIdx, Node.leavesOf]
  · rw [List.all_eq_true]
    intro e he
    exact decide_eq_true (VA.findLeaf_prefix_lt n hs hsep k e he)

/-- Witness for C7 (amended), at the concrete Order-4 tree and key 30:
the empty root gives `none`, a leaf root is returned as is, and the
descent lands inside the leaf sequence with every skipped entry's key
below 30. -/
theorem c7_findLeaf_amended_witness :
    VA.findLeafEntries (none : Option (Node Nat String)) 30 = none ∧
    VA.findLeafEntries (some (.leaf [(10, "a")])) (30 : Nat) = some [(10, "a")] ∧
    VA.findLeafIdx c4root 30 < (Node.leavesOf c4root).length ∧
    (((Node.leavesOf c4root).take (VA.findLeafIdx c4root 30)).flatten.all
      (fun e => decide (e.1 < 30))) = true := by
  have h := c7_findLeaf_amended c4root 30
    (by simp [VA.shapeWFb, c4root])
    (by simp [VA.sepWFb, c4root, Node.entriesOf, Node.leavesOf])
  exact ⟨h.1, h.2.1 [(10, "a")], h.2.2.1, h.2.2.2⟩

/-- **C8.** The claim says every non-root node keeps at least
`⌊(Order−1)/2⌋` keys, rebalancing on underflow.  The cited
`redistribute_nodes` (BP-Tree.tpp 608-636) moves the LEFT sibling's last
pair into the underfull right node's FRONT — backwards when the left node
is the underfull one: with `Order = 5`, inserting keys 10..50 and then
`remove(10)` leaves a non-root EMPTY leaf (0 < ⌊4/2⌋ = 2 keys), so the
fill-bound invariant does not hold after the operation returns. -/
theorem c8_underflow_not_rebalanced :
    c8run = ⟨some c8root, 4⟩ ∧
    Node.allStrictSub (fun m => decide ((5 - 1) / 2 ≤ Node.keyCount m)) c8root = false := by
  constructor
  · simp [c8run, c8root, VA.insertSeq, VA.insert, VA.findLeafPath, VA.getAt,
      VA.setAt, VA.clampIdx, lowerBound, insertAt, VA.splitLeaf, VA.splitInternal,
      VA.findParentPath, VA.findParentAux, VA.loopScan, VA.heightOf, Node.beq,
      VA.replaceNode, Node.leavesOf, VA.remove, VA.balanceAfterRemove,
      VA.redistributeNodes, VA.mergeNodes, VA.leafBiggerHalf, List.findIdx_cons,
      List.findIdx_nil]
  · simp [Node.allStrictSub, c8root, Node.keyCount]

/-- **C9.** CONFIRMED: `CompositeKey::operator<`
(Composite-Key.tpp 20-23) compares the component tuples lexicographically
left-to-right — smaller first component wins, ties fall through to the
next component — and the concrete tree keyed by `CompositeKey<int,
string>` built from `(2,"b")→w, (1,"c")→x, (1,"a")→y, (2,"a")→z` iterates
its values as `y, x, z, w`. -/
theorem c9_composite_key_lex_order :
    (∀ x y : CKey, CKey.lt x y = true ↔ (x.a < y.a ∨ (x.a = y.a ∧ x.b < y.b))) ∧
    c9vals = some ["y", "x", "z", "w"] := by
  constructor
  · intro x y
    rw [← CKey.lt_spec]
    cases x with
    | mk p s =>
      cases y with
      | mk q t =>
        have hdef : ((⟨p, s⟩ : CKey) < ⟨q, t⟩) ↔ toLex (p, s) < toLex (q, t) := Iff.rfl
        rw [hdef, Prod.Lex.lt_iff]
  · simp [c9vals, c9run, VA.insertSeq, VA.insert, VA.findLeafPath, VA.getAt,
      VA.setAt, VA.clampIdx, lowerBound, insertAt, VA.splitLeaf, Node.entriesOf,
      Node.leavesOf, CKey.lt_spec, CKey.lt,
      (by decide : ¬ (['c'] < ['a'])), (by decide : ¬ (['b'] < ['a']))]

/-- Counterexample for C10: on the C8 state (`size_ = 4`, but its
leftmost leaf is empty), advancing `begin()` exactly `size()` = 4 times
does NOT reach `end()` — the empty leaf costs an extra increment, so the
claimed "begin() advanced size() times reaches end()" fails for this
reachable tree. -/
theorem c10_iterator_counterexample :
    c8run.size = 4 ∧
    VA.It.stepN 4 (VA.beginIt c8run) ≠ VA.endIt := by
  have hst : c8run = ⟨some c8root, 4⟩ := by
    simp [c8run, c8root, VA.insertSeq, VA.insert, VA.findLeafPath, VA.getAt,
      VA.setAt, VA.clampIdx, lowerBound, insertAt, VA.splitLeaf, VA.splitInternal,
      VA.findParentPath, VA.findParentAux, VA.loopScan, VA.heightOf, Node.beq,
      VA.replaceNode, Node.leavesOf, VA.remove, VA.balanceAfterRemove,
      VA.redistributeNodes, VA.mergeNodes, VA.leafBiggerHalf, List.findIdx_cons,
      List.findIdx_nil]
  rw [hst]
  constructor
  · rfl
  · simp [VA.It.stepN, VA.It.inc, VA.beginIt, VA.endIt, c8root, Node.leavesOf]

/-- **C10 (amended).** What the cited `operator++` (Iterators.tpp 12-26)
does guarantee: incrementing the null-node iterator (in particular
`end()`) is a no-op at ANY index, and whenever every leaf of the tree is
non-empty and `size_` equals the number of stored pairs (both are spec §3
invariants, though — see the counterexample and C2/C8 — not maintained by
every variant), advancing `begin()` exactly `size()` times reaches
`end()`, and further increments keep it there. -/
theorem c10_iterator_amended {K V : Type} :
    (∀ i : Nat, VA.It.inc (⟨[], i⟩ : VA.It K V) = ⟨[], i⟩) ∧
    ∀ s : TreeState K V,
      (∀ l ∈ (s.root.elim [] Node.leavesOf), l ≠ []) →
      s.size = (s.root.elim [] Node.entriesOf).length →
      VA.It.stepN s.size (VA.beginIt s) = VA.endIt ∧
      VA.It.inc (VA.It.stepN s.size (VA.beginIt s)) = VA.endIt := by
  constructor
  · intro i
    rfl
  · intro s hne hsz
    obtain ⟨r, sz⟩ := s
    have hmain : VA.It.stepN sz (VA.beginIt ⟨r, sz⟩) = VA.endIt := by
      cases r with
      | none =>
        simp only [Option.elim, List.length_nil] at hsz
        subst hsz
        rfl
      | some n =>
        simp only [Option.elim, Node.entriesOf] at hsz
        have hch := VA.It.stepN_chain (Node.leavesOf n)
          (by
            intro l hl
            exact hne l (by simpa [Option.elim] using hl))
        show VA.It.stepN sz (⟨Node.leavesOf n, 0⟩ : VA.It K V) = VA.endIt
        rw [hsz]
        exact hch
    exact ⟨hmain, by rw [hmain]; rfl⟩

/-- Witness for C10 (amended): on the well-formed Order-4 tree of four
pairs, `size()` = 4 increments take `begin()` to `end()`, a further
increment stays at `end()`, and incrementing the null iterator at index 7
is a no-op. -/
theorem c10_iterator_amended_witness :
    VA.It.inc (⟨[], 7⟩ : VA.It Nat String) = ⟨[], 7⟩ ∧
    VA.It.stepN 4 (VA.beginIt (⟨some c4root, 4⟩ : TreeState Nat String)) = VA.endIt ∧
    VA.It.inc (VA.It.stepN 4 (VA.beginIt (⟨some c4root, 4⟩ : TreeState Nat String))) =
      VA.endIt := by
  have h := c10_iterator_amended (K := Nat) (V := String)
  have h2 := h.2 ⟨some c4root, 4⟩
    (by
      intro l hl
      have hev : ((⟨some c4root, 4⟩ : TreeState Nat String).root.elim [] Node.leavesOf) =
          [[(10, "a"), (20, "b")], [(30, "c"), (40, "d")]] := by
        simp [Option.elim, c4root, Node.leavesOf]
      rw [hev] at hl
      simp only [List.mem_cons, List.not_mem_nil, or_false] at hl
      rcases hl with h | h <;> subst h <;> simp)
    (by simp [Option.elim, c4root, Node.entriesOf, Node.leavesOf])
  exact ⟨h.1 7, h2.1, h2.2⟩

end BPTree
